import Mathlib

/-!
Verification of the bigfile-chunk-uploader core against its specification.

The definitions below are shallow embeddings of the TypeScript sources:
`src/core/ChunkManager.ts` (chunk table, hashing, progress bookkeeping) and
`src/strategies/ConcurrentStrategy.ts` (scheduling, pause/resume, error
handling, progress emission).  Machine numbers are modelled as `Nat` / `Int`
and, where the source performs fractional arithmetic (`Math.floor`,
`Math.round` on quotients), as `Rat`.  Fallible or callback-driven code is
modelled by explicit state passing and event lists.
-/

namespace BigUploader

/-- Chunk status, from `types/index.d.ts`:
`type ChunkStatus = pending | uploading | completed | failed`. -/
inductive ChunkStatus where
  | pending
  | uploading
  | completed
  | failed
deriving DecidableEq, Repr

/-- Chunk record, from `types/index.d.ts` (`ChunkInfo`).  The `blob` field is
the byte range `[start, stop)` of the file, so it is fully determined by
`start` and `stop` and is not repeated here.  The source field named `end`
is called `stop` because `end` is a Lean keyword. -/
structure ChunkInfo where
  index : Nat
  start : Nat
  stop : Nat
  status : ChunkStatus
  retries : Nat
deriving DecidableEq, Repr

/-- Byte length of a chunk (`end - start` in the source). -/
def chunkLen (c : ChunkInfo) : Nat := c.stop - c.start

/-- The loop body of `ChunkManager._prepareChunks`:
`while (start < this.file.size) { end = min(start + chunkSize, fileSize);
push {index, start, end, status: pending, retries: 0}; start = end; index++ }`.
The source loop never terminates when `chunkSize = 0` and `fileSize > 0`;
the guard `0 < chunkSize` makes the model total and agrees with the source
on every positive chunk size. -/
def prepareChunksAux (fileSize chunkSize : Nat) (start index : Nat) :
    List ChunkInfo :=
  if h : start < fileSize ∧ 0 < chunkSize then
    ChunkInfo.mk index start (min (start + chunkSize) fileSize)
        ChunkStatus.pending 0 ::
      prepareChunksAux fileSize chunkSize (min (start + chunkSize) fileSize)
        (index + 1)
  else
    []
termination_by fileSize - start
decreasing_by
  omega

/-- `ChunkManager._prepareChunks`, run from the constructor with
`start = 0`, `index = 0`. -/
def prepareChunks (fileSize chunkSize : Nat) : List ChunkInfo :=
  prepareChunksAux fileSize chunkSize 0 0

theorem prepareChunksAux_pos {fileSize chunkSize start index : Nat}
    (hs : start < fileSize) (hcs : 0 < chunkSize) :
    prepareChunksAux fileSize chunkSize start index =
      ChunkInfo.mk index start (min (start + chunkSize) fileSize)
          ChunkStatus.pending 0 ::
        prepareChunksAux fileSize chunkSize (min (start + chunkSize) fileSize)
          (index + 1) := by
  rw [prepareChunksAux.eq_def]
  simp [hs, hcs]

theorem prepareChunksAux_neg {fileSize chunkSize start index : Nat}
    (hs : ¬ (start < fileSize ∧ 0 < chunkSize)) :
    prepareChunksAux fileSize chunkSize start index = [] := by
  rw [prepareChunksAux.eq_def]
  simp [hs]

theorem prepareChunksAux_eq_nil_iff {fileSize chunkSize start index : Nat} :
    prepareChunksAux fileSize chunkSize start index = [] ↔
      ¬ (start < fileSize ∧ 0 < chunkSize) := by
  constructor
  · intro hnil
    intro hpos
    rw [prepareChunksAux_pos hpos.1 hpos.2] at hnil
    exact List.cons_ne_nil _ _ hnil
  · exact prepareChunksAux_neg

/-- Full characterization of the elements produced by the chunking loop:
the chunk at position `k` of `prepareChunksAux fileSize chunkSize s i` is
`⟨i + k, s + k*chunkSize, min (s + (k+1)*chunkSize) fileSize, pending, 0⟩`,
and its start lies strictly inside the file. -/
theorem prepareChunksAux_get (fileSize chunkSize : Nat) (hcs : 0 < chunkSize) :
    ∀ fuel s i, fileSize - s ≤ fuel →
      ∀ k, k < (prepareChunksAux fileSize chunkSize s i).length →
        (prepareChunksAux fileSize chunkSize s i)[k]? =
            some (ChunkInfo.mk (i + k) (s + k * chunkSize)
              (min (s + (k + 1) * chunkSize) fileSize) ChunkStatus.pending 0) ∧
          s + k * chunkSize < fileSize := by
  intro fuel
  induction fuel with
  | zero =>
    intro s i hle k h
    exfalso
    have hs : ¬ (s < fileSize ∧ 0 < chunkSize) := by omega
    rw [prepareChunksAux_neg hs] at h
    exact absurd h (by simp)
  | succ n ih =>
    intro s i hle k h
    by_cases hs : s < fileSize
    · rw [prepareChunksAux_pos hs hcs] at h ⊢
      match k with
      | 0 =>
        simp only [List.getElem?_cons_zero, Option.some.injEq]
        constructor
        · simp [Nat.one_mul]
        · omega
      | Nat.succ k =>
        simp only [List.getElem?_cons_succ, List.length_cons] at h ⊢
        have hle2 : fileSize - min (s + chunkSize) fileSize ≤ n := by omega
        have hk : k < (prepareChunksAux fileSize chunkSize
            (min (s + chunkSize) fileSize) (i + 1)).length := by omega
        obtain ⟨hget, hlt⟩ := ih (min (s + chunkSize) fileSize) (i + 1) hle2 k hk
        have hcsle : s + chunkSize ≤ fileSize := by
          rcases Nat.le_total (s + chunkSize) fileSize with hle3 | hle3
          · exact hle3
          · exfalso
            rw [Nat.min_eq_right hle3] at hlt
            omega
        rw [Nat.min_eq_left hcsle] at hget hlt ⊢
        constructor
        · rw [hget]
          simp only [Option.some.injEq, ChunkInfo.mk.injEq, Nat.succ_eq_add_one,
            Nat.succ_mul, and_true, true_and]
          omega
        · simp only [Nat.succ_eq_add_one, Nat.succ_mul] at hlt ⊢
          omega
    · exfalso
      have hns : ¬ (s < fileSize ∧ 0 < chunkSize) := fun hc => hs hc.1
      rw [prepareChunksAux_neg hns] at h
      exact absurd h (by simp)

/-- The last chunk produced by the loop always ends exactly at `fileSize`. -/
theorem prepareChunksAux_last_stop (fileSize chunkSize : Nat)
    (hcs : 0 < chunkSize) :
    ∀ fuel s i, fileSize - s ≤ fuel →
      ∀ k c, k + 1 = (prepareChunksAux fileSize chunkSize s i).length →
        (prepareChunksAux fileSize chunkSize s i)[k]? = some c →
        c.stop = fileSize := by
  intro fuel
  induction fuel with
  | zero =>
    intro s i hle k c hlast hget
    exfalso
    have hs : ¬ (s < fileSize ∧ 0 < chunkSize) := by omega
    rw [prepareChunksAux_neg hs] at hlast
    simp at hlast
  | succ n ih =>
    intro s i hle k c hlast hget
    by_cases hs : s < fileSize
    · rw [prepareChunksAux_pos hs hcs] at hlast hget
      match k with
      | 0 =>
        simp only [List.length_cons] at hlast
        have htail : prepareChunksAux fileSize chunkSize
            (min (s + chunkSize) fileSize) (i + 1) = [] := by
          have hlen : (prepareChunksAux fileSize chunkSize
              (min (s + chunkSize) fileSize) (i + 1)).length = 0 := by omega
          exact List.length_eq_zero.mp hlen
        have hns := prepareChunksAux_eq_nil_iff.mp htail
        simp only [List.getElem?_cons_zero, Option.some.injEq] at hget
        have hstop : ¬ (min (s + chunkSize) fileSize < fileSize) := by
          intro hc
          exact hns ⟨hc, hcs⟩
        have hc : c.stop = min (s + chunkSize) fileSize := by rw [← hget]
        omega
      | Nat.succ k =>
        simp only [List.getElem?_cons_succ, List.length_cons] at hlast hget
        have hle2 : fileSize - min (s + chunkSize) fileSize ≤ n := by omega
        exact ih (min (s + chunkSize) fileSize) (i + 1) hle2 k c (by omega) hget
    · exfalso
      have hns : ¬ (s < fileSize ∧ 0 < chunkSize) := fun hc => hs hc.1
      rw [prepareChunksAux_neg hns] at hlast
      simp at hlast

/-- Chunk lengths produced by the loop sum to the remaining file size. -/
theorem prepareChunksAux_sum_len (fileSize chunkSize : Nat)
    (hcs : 0 < chunkSize) :
    ∀ fuel s i, fileSize - s ≤ fuel →
      ((prepareChunksAux fileSize chunkSize s i).map chunkLen).sum
        = fileSize - s := by
  intro fuel
  induction fuel with
  | zero =>
    intro s i hle
    have hs : ¬ (s < fileSize ∧ 0 < chunkSize) := by omega
    rw [prepareChunksAux_neg hs]
    simp
    omega
  | succ n ih =>
    intro s i hle
    by_cases hs : s < fileSize
    · rw [prepareChunksAux_pos hs hcs]
      simp only [List.map_cons, List.sum_cons]
      rw [ih (min (s + chunkSize) fileSize) (i + 1) (by omega)]
      simp only [chunkLen]
      omega
    · have hns : ¬ (s < fileSize ∧ 0 < chunkSize) := fun hc => hs hc.1
      rw [prepareChunksAux_neg hns]
      simp
      omega

theorem prepareChunks_get (fileSize chunkSize : Nat) (hcs : 0 < chunkSize)
    (k : Nat) (h : k < (prepareChunks fileSize chunkSize).length) :
    (prepareChunks fileSize chunkSize)[k]? =
        some (ChunkInfo.mk k (k * chunkSize) (min ((k + 1) * chunkSize) fileSize)
          ChunkStatus.pending 0) ∧
      k * chunkSize < fileSize := by
  have := prepareChunksAux_get fileSize chunkSize hcs fileSize 0 0 (by omega) k h
  simpa using this

theorem getElem?_lt_length {l : List ChunkInfo} {k : Nat} {c : ChunkInfo}
    (h : l[k]? = some c) : k < l.length := by
  rcases List.getElem?_eq_some.mp h with ⟨hk, _⟩
  exact hk

/-- C1: for every file size and positive chunk size, the table built by
`ChunkManager._prepareChunks` has indices ascending from 0, contiguous
non-overlapping byte ranges covering exactly `[0, fileSize)`, every chunk of
length `chunkSize` except possibly the last (whose length is
`fileSize - lastStart`), lengths summing to `fileSize`, and no empty chunk
(in particular no trailing empty chunk when `fileSize` is an exact multiple
of `chunkSize`). -/
theorem chunk_table_covers (fileSize chunkSize : Nat) (hcs : 0 < chunkSize) :
    (∀ k, k < (prepareChunks fileSize chunkSize).length →
        (prepareChunks fileSize chunkSize)[k]? =
          some (ChunkInfo.mk k (k * chunkSize)
            (min ((k + 1) * chunkSize) fileSize) ChunkStatus.pending 0)) ∧
    (∀ k c c2, (prepareChunks fileSize chunkSize)[k]? = some c →
        (prepareChunks fileSize chunkSize)[k + 1]? = some c2 →
        c2.start = c.stop) ∧
    (∀ c, (prepareChunks fileSize chunkSize)[0]? = some c → c.start = 0) ∧
    (∀ k c, k + 1 = (prepareChunks fileSize chunkSize).length →
        (prepareChunks fileSize chunkSize)[k]? = some c →
        c.stop = fileSize ∧ chunkLen c = fileSize - c.start) ∧
    (∀ k c, (prepareChunks fileSize chunkSize)[k]? = some c →
        k + 1 < (prepareChunks fileSize chunkSize).length →
        chunkLen c = chunkSize) ∧
    ((prepareChunks fileSize chunkSize).map chunkLen).sum = fileSize ∧
    (∀ c ∈ prepareChunks fileSize chunkSize, c.start < c.stop) := by
  refine ⟨?_, ?_, ?_, ?_, ?_, ?_, ?_⟩
  · intro k h
    exact (prepareChunks_get fileSize chunkSize hcs k h).1
  · intro k c c2 hc hc2
    have hk2 := getElem?_lt_length hc2
    have h1 := prepareChunks_get fileSize chunkSize hcs k (by omega)
    have h2 := prepareChunks_get fileSize chunkSize hcs (k + 1) hk2
    rw [h1.1] at hc
    rw [h2.1] at hc2
    have hcv : c = ChunkInfo.mk k (k * chunkSize)
        (min ((k + 1) * chunkSize) fileSize) ChunkStatus.pending 0 := by
      exact (Option.some.injEq _ _ ▸ hc).symm
    have hcv2 : c2 = ChunkInfo.mk (k + 1) ((k + 1) * chunkSize)
        (min ((k + 1 + 1) * chunkSize) fileSize) ChunkStatus.pending 0 := by
      exact (Option.some.injEq _ _ ▸ hc2).symm
    rw [hcv, hcv2]
    have hlt := h2.2
    simp only []
    omega
  · intro c hc
    have h0 := prepareChunks_get fileSize chunkSize hcs 0 (getElem?_lt_length hc)
    rw [h0.1] at hc
    have hcv : c = ChunkInfo.mk 0 (0 * chunkSize)
        (min ((0 + 1) * chunkSize) fileSize) ChunkStatus.pending 0 := by
      exact (Option.some.injEq _ _ ▸ hc).symm
    rw [hcv]
    simp
  · intro k c hlast hc
    have hstop : c.stop = fileSize := by
      refine prepareChunksAux_last_stop fileSize chunkSize hcs fileSize 0 0
        (by omega) k c ?_ ?_
      · exact hlast
      · exact hc
    refine ⟨hstop, ?_⟩
    simp only [chunkLen, hstop]
  · intro k c hc hk1
    have h1 := prepareChunks_get fileSize chunkSize hcs k (by omega)
    have h2 := prepareChunks_get fileSize chunkSize hcs (k + 1) hk1
    rw [h1.1] at hc
    have hcv : c = ChunkInfo.mk k (k * chunkSize)
        (min ((k + 1) * chunkSize) fileSize) ChunkStatus.pending 0 := by
      exact (Option.some.injEq _ _ ▸ hc).symm
    have hlt := h2.2
    rw [hcv]
    simp only [Nat.succ_mul] at hlt
    simp only [chunkLen, Nat.succ_mul]
    omega
  · have := prepareChunksAux_sum_len fileSize chunkSize hcs fileSize 0 0 (by omega)
    simpa using this
  · intro c hmem
    rcases List.mem_iff_getElem?.mp hmem with ⟨k, hk⟩
    have h1 := prepareChunks_get fileSize chunkSize hcs k (getElem?_lt_length hk)
    rw [h1.1] at hk
    have hcv : c = ChunkInfo.mk k (k * chunkSize)
        (min ((k + 1) * chunkSize) fileSize) ChunkStatus.pending 0 := by
      exact (Option.some.injEq _ _ ▸ hk).symm
    have hlt := h1.2
    rw [hcv]
    simp only [Nat.succ_mul]
    omega

/-- C1 witness: a concrete 10-byte file with 4-byte chunks satisfies the
hypothesis `0 < chunkSize`, and the chunk lengths sum to the file size. -/
theorem chunk_table_covers_witness :
    0 < 4 ∧ ((prepareChunks 10 4).map chunkLen).sum = 10 :=
  ⟨by decide, (chunk_table_covers 10 4 (by decide)).2.2.2.2.2.1⟩

/-- Apply one status write to a chunk record, as in the body of
`ChunkManager.updateChunkStatus`: the status is overwritten, and `retries`
is incremented exactly when the new status is `failed`. -/
def applyStatus (c : ChunkInfo) (s : ChunkStatus) : ChunkInfo :=
  { c with
    status := s
    retries := if s = ChunkStatus.failed then c.retries + 1 else c.retries }

/-- `ChunkManager.updateChunkStatus`: `chunks.find(c => c.index === index)`
locates the first chunk with the given index and mutates it in place; a
missing index is a no-op. -/
def updateChunkStatus : List ChunkInfo → Nat → ChunkStatus → List ChunkInfo
  | [], _, _ => []
  | c :: rest, i, s =>
    if c.index = i then applyStatus c s :: rest
    else c :: updateChunkStatus rest i s

/-- `ChunkManager.getPendingChunks(excludeIndices)`:
`chunks.filter(c => c.status === pending && !excludeIndices.includes(c.index))`. -/
def getPendingChunks (chunks : List ChunkInfo) (excludeIndices : List Nat) :
    List ChunkInfo :=
  chunks.filter fun c =>
    c.status == ChunkStatus.pending && !(excludeIndices.contains c.index)

/-- `ChunkManager.getCompletedIndices()`:
`chunks.filter(c => c.status === completed).map(c => c.index)`. -/
def getCompletedIndices (chunks : List ChunkInfo) : List Nat :=
  (chunks.filter fun c => c.status == ChunkStatus.completed).map (·.index)

/-- `ChunkManager.getChunksToRetry(maxRetries)`:
`chunks.filter(c => c.status === failed && c.retries < maxRetries)`. -/
def getChunksToRetry (chunks : List ChunkInfo) (maxRetries : Nat) :
    List ChunkInfo :=
  chunks.filter fun c =>
    c.status == ChunkStatus.failed && decide (c.retries < maxRetries)

/-- JavaScript `Math.floor` on a rational value. -/
def jsFloor (q : ℚ) : ℤ := ⌊q⌋

/-- JavaScript `Math.round` on a nonnegative rational value:
`Math.round(x) = Math.floor(x + 0.5)` for all finite nonnegative `x`. -/
def jsRound (q : ℚ) : ℤ := ⌊q + 1 / 2⌋

/-- Number of chunks whose status is `completed`
(`chunks.filter(c => c.status === completed).length`). -/
def completedCount (chunks : List ChunkInfo) : Nat :=
  (chunks.filter fun c => c.status == ChunkStatus.completed).length

/-- `ChunkManager.getProgress()`:
`Math.round((completed / this.chunks.length) * 100)`. -/
def getProgress (chunks : List ChunkInfo) : ℤ :=
  jsRound ((completedCount chunks : ℚ) / (chunks.length : ℚ) * 100)

/-- A concrete chunk table with 3 chunks of which 2 are completed
(12-byte file, 5-byte chunks, chunks 0 and 1 already uploaded). -/
def table3of2 : List ChunkInfo :=
  [ChunkInfo.mk 0 0 5 ChunkStatus.completed 0,
   ChunkInfo.mk 1 5 10 ChunkStatus.completed 0,
   ChunkInfo.mk 2 10 12 ChunkStatus.pending 0]

/-- C5 counterexample: with 2 of 3 chunks completed,
`ChunkManager.getProgress` returns `Math.round(200/3) = 67`, while the
claimed rounded-down value is `⌊200/3⌋ = 66`. -/
theorem getProgress_not_floor :
    getProgress table3of2 = 67 ∧
      jsFloor ((completedCount table3of2 : ℚ) / ((table3of2.length : ℚ)) * 100)
        = 66 := by
  have hc : completedCount table3of2 = 2 := by decide
  have hl : table3of2.length = 3 := by decide
  constructor
  · rw [getProgress, jsRound, hc, hl]
    norm_num
  · rw [jsFloor, hc, hl]
    norm_num

/-- C5 amended: for every chunk table with at least one chunk,
`getProgress()` returns `completedCount / totalCount * 100` rounded to the
nearest integer with halves rounded up (`Math.round`), i.e. the unique
integer within `(x - 1/2, x + 1/2]` of the exact ratio -- not rounded
down. -/
theorem getProgress_eq_round (chunks : List ChunkInfo) (_h : chunks ≠ []) :
    ((completedCount chunks : ℚ) / ((chunks.length : ℚ)) * 100) - 1 / 2 <
        (getProgress chunks : ℚ) ∧
      (getProgress chunks : ℚ) ≤
        ((completedCount chunks : ℚ) / ((chunks.length : ℚ)) * 100) + 1 / 2 := by
  rw [getProgress, jsRound]
  constructor
  · have hlt := Int.lt_floor_add_one
      ((completedCount chunks : ℚ) / ((chunks.length : ℚ)) * 100 + 1 / 2)
    push_cast at hlt ⊢
    linarith
  · have hle := Int.floor_le
      ((completedCount chunks : ℚ) / ((chunks.length : ℚ)) * 100 + 1 / 2)
    push_cast at hle ⊢
    linarith

/-- C5 witness: the amended rounding characterization holds at the concrete
3-chunk table with 2 completed chunks. -/
theorem getProgress_eq_round_witness :
    table3of2 ≠ [] ∧
      (((completedCount table3of2 : ℚ) / ((table3of2.length : ℚ)) * 100)
          - 1 / 2 < (getProgress table3of2 : ℚ) ∧
        (getProgress table3of2 : ℚ) ≤
          ((completedCount table3of2 : ℚ) / ((table3of2.length : ℚ)) * 100)
            + 1 / 2) :=
  ⟨by decide, getProgress_eq_round table3of2 (by decide)⟩

/-- State of a `ChunkManager` relevant to hashing: the file content (one
`Nat` per byte), the configured chunk size and the memoized digest
(`this.fileHash`, initially `null`). -/
structure HashState where
  fileBytes : List Nat
  chunkSize : Nat
  fileHash : Option String
deriving DecidableEq, Repr

/-- Result of one `calculateFileHash` call: the value the returned promise
resolves with (`none` models `undefined`), the `ChunkManager` state after
the call, and how many `readFileAsArrayBuffer` read operations the call
performed. -/
structure HashCall where
  ret : Option String
  st : HashState
  reads : Nat
deriving DecidableEq, Repr

/-- JavaScript truthiness of `this.fileHash` in
`if (this.fileHash) return this.fileHash`: `null` and the empty string are
falsy. -/
def hashTruthy : Option String → Bool
  | some h => !(h == "")
  | none => false

/-- The read loop of `ChunkManager.calculateFileHash`:
`while (offset < fileSize) { end = min(offset + chunkSize, fileSize);
chunkBuffer = read(file.slice(offset, end)); hasher.update(chunkBuffer);
offset = end }`.  Returns the concatenation of all bytes fed to the hasher
and the number of read operations.  Structural fuel replaces the `while`
loop; `fileBytes.length` units of fuel suffice because `offset` advances by
at least one byte per iteration (the source loop never terminates when
`chunkSize = 0` and the file is nonempty). -/
def hashLoopAux (fileBytes : List Nat) (chunkSize : Nat) :
    Nat → Nat → List Nat × Nat
  | 0, _ => ([], 0)
  | fuel + 1, offset =>
    if offset < fileBytes.length ∧ 0 < chunkSize then
      let e := min (offset + chunkSize) fileBytes.length
      let rest := hashLoopAux fileBytes chunkSize fuel e
      ((fileBytes.drop offset).take (e - offset) ++ rest.1, rest.2 + 1)
    else ([], 0)

/-- `ChunkManager.calculateFileHash`, parameterized by the digest function
(SHA-256 hex in the source).  The memoized branch returns `this.fileHash`
with no reads; the computing branch streams the file through the hasher,
stores the digest in `this.fileHash`, and -- in this implementation -- falls
off the end of the function, so the promise resolves with `undefined`
(`ret = none`). -/
def calculateFileHash (digestFn : List Nat → String) (st : HashState) :
    HashCall :=
  if hashTruthy st.fileHash then
    HashCall.mk st.fileHash st 0
  else
    let r := hashLoopAux st.fileBytes st.chunkSize st.fileBytes.length 0
    HashCall.mk none
      (HashState.mk st.fileBytes st.chunkSize (some (digestFn r.1))) r.2

/-- The read loop feeds exactly the remaining bytes of the file to the
hasher, given sufficient fuel. -/
theorem hashLoopAux_fed (fileBytes : List Nat) (chunkSize : Nat)
    (hcs : 0 < chunkSize) :
    ∀ fuel offset, fileBytes.length - offset ≤ fuel →
      (hashLoopAux fileBytes chunkSize fuel offset).1
        = fileBytes.drop offset := by
  intro fuel
  induction fuel with
  | zero =>
    intro offset hle
    have hdrop : fileBytes.drop offset = [] := by
      apply List.drop_eq_nil_of_le
      omega
    rw [hashLoopAux, hdrop]
  | succ n ih =>
    intro offset hle
    rw [hashLoopAux]
    by_cases hoff : offset < fileBytes.length
    · simp only [hoff, hcs, and_self, if_true]
      rw [ih (min (offset + chunkSize) fileBytes.length) (by omega)]
      have h1 : List.drop (min (offset + chunkSize) fileBytes.length - offset)
            (List.drop offset fileBytes)
          = List.drop (min (offset + chunkSize) fileBytes.length) fileBytes := by
        rw [List.drop_drop]
        congr 1
        omega
      rw [← h1, List.take_append_drop]
    · simp only [hoff, false_and, if_false]
      have hdrop : fileBytes.drop offset = [] := by
        apply List.drop_eq_nil_of_le
        omega
      rw [hdrop]

/-- Concrete digest function for witnesses: decimal sum of the bytes. -/
def digestFn0 : List Nat → String := fun l => toString l.sum

/-- Concrete un-hashed `ChunkManager` hashing state: 3-byte file, 2-byte
hash windows, no memoized digest. -/
def hashSt0 : HashState := HashState.mk [1, 2, 3] 2 none

/-- C7 counterexample: the first `calculateFileHash` call does not return
the digest at all -- the computing branch stores the digest in
`this.fileHash` but resolves with `undefined` -- so the second call (which
does return the memoized digest) does not return a value identical to the
first call value. -/
theorem calculateFileHash_first_call_returns_nothing :
    (calculateFileHash digestFn0 hashSt0).ret = none ∧
      (calculateFileHash digestFn0
          (calculateFileHash digestFn0 hashSt0).st).ret = some "6" ∧
      (calculateFileHash digestFn0 hashSt0).ret ≠
        (calculateFileHash digestFn0
          (calculateFileHash digestFn0 hashSt0).st).ret := by
  decide

/-- C7 amended: for every file and positive window size, the first
`calculateFileHash` call reads the file and stores the digest of the whole
content in `fileHash` (resolving with `undefined`), and a second call
without mutating the file returns that memoized digest, identical to the
stored one, performing zero read operations and leaving the state
untouched. -/
theorem calculateFileHash_memoizes (digestFn : List Nat → String)
    (st : HashState) (hnone : st.fileHash = none) (hcs : 0 < st.chunkSize)
    (hne : digestFn st.fileBytes ≠ "") :
    (calculateFileHash digestFn st).ret = none ∧
      (calculateFileHash digestFn st).st.fileHash
        = some (digestFn st.fileBytes) ∧
      (calculateFileHash digestFn
          (calculateFileHash digestFn st).st).ret
        = some (digestFn st.fileBytes) ∧
      (calculateFileHash digestFn
          (calculateFileHash digestFn st).st).reads = 0 ∧
      (calculateFileHash digestFn
          (calculateFileHash digestFn st).st).st
        = (calculateFileHash digestFn st).st := by
  have hfed : (hashLoopAux st.fileBytes st.chunkSize st.fileBytes.length 0).1
      = st.fileBytes := by
    rw [hashLoopAux_fed st.fileBytes st.chunkSize hcs st.fileBytes.length 0
      (by omega)]
    simp
  have h1 : calculateFileHash digestFn st
      = HashCall.mk none
          (HashState.mk st.fileBytes st.chunkSize
            (some (digestFn st.fileBytes)))
          (hashLoopAux st.fileBytes st.chunkSize st.fileBytes.length 0).2 := by
    rw [calculateFileHash, hnone]
    simp only [hashTruthy, Bool.false_eq_true, if_false, hfed]
  have h2 : calculateFileHash digestFn
      (HashState.mk st.fileBytes st.chunkSize (some (digestFn st.fileBytes)))
      = HashCall.mk (some (digestFn st.fileBytes))
          (HashState.mk st.fileBytes st.chunkSize
            (some (digestFn st.fileBytes))) 0 := by
    rw [calculateFileHash]
    have htr : hashTruthy (HashState.mk st.fileBytes st.chunkSize
        (some (digestFn st.fileBytes))).fileHash = true := by
      simp only [hashTruthy]
      simp [hne]
    rw [if_pos htr]
  simp [h1, h2]

/-- C7 witness: the amended memoization property holds for the concrete
3-byte file with 2-byte windows and the byte-sum digest function. -/
theorem calculateFileHash_memoizes_witness :
    hashSt0.fileHash = none ∧ 0 < hashSt0.chunkSize ∧
      digestFn0 hashSt0.fileBytes ≠ "" ∧
      ((calculateFileHash digestFn0 hashSt0).ret = none ∧
        (calculateFileHash digestFn0 hashSt0).st.fileHash
          = some (digestFn0 hashSt0.fileBytes) ∧
        (calculateFileHash digestFn0
            (calculateFileHash digestFn0 hashSt0).st).ret
          = some (digestFn0 hashSt0.fileBytes) ∧
        (calculateFileHash digestFn0
            (calculateFileHash digestFn0 hashSt0).st).reads = 0 ∧
        (calculateFileHash digestFn0
            (calculateFileHash digestFn0 hashSt0).st).st
          = (calculateFileHash digestFn0 hashSt0).st) :=
  ⟨by decide, by decide, by decide,
    calculateFileHash_memoizes digestFn0 hashSt0 (by decide) (by decide)
      (by decide)⟩

/-- Control state of a `ConcurrentStrategy` instance (the fields of the
class that the scheduling, pause/resume and error-handling code reads and
writes).  The source queues `pendingChunks` and `retryQueue` hold references
to the very `ChunkInfo` objects stored in `chunkManager.chunks`; they are
modelled as queues of chunk indices, with every read going through the
table, which coincides with reference semantics whenever chunk indices are
distinct (as they are for every table built by `_prepareChunks`).
`abortController` models `this.abortController !== null`. -/
structure StratState where
  chunks : List ChunkInfo
  pendingChunks : List Nat
  retryQueue : List Nat
  activeConnections : Nat
  paused : Bool
  aborted : Bool
  abortController : Bool
deriving DecidableEq, Repr

/-- `chunks.find(c => c.index === index)`, the lookup used by
`ChunkManager.updateChunkStatus` (first match wins). -/
def findChunk (chunks : List ChunkInfo) (i : Nat) : Option ChunkInfo :=
  chunks.find? fun c => c.index == i

/-- The first matching chunk after `updateChunkStatus` is exactly the first
matching chunk before, with the status write applied: both `find` and the
update target the first chunk whose index matches. -/
theorem findChunk_updateChunkStatus (chunks : List ChunkInfo) (i : Nat)
    (s : ChunkStatus) :
    findChunk (updateChunkStatus chunks i s) i
      = (findChunk chunks i).map (applyStatus · s) := by
  induction chunks with
  | nil => rfl
  | cons c rest ih =>
    rw [updateChunkStatus]
    by_cases hc : c.index = i
    · rw [if_pos hc]
      have h1 : ((applyStatus c s).index == i) = true := by
        simp [applyStatus, hc]
      have h2 : (c.index == i) = true := by simp [hc]
      simp [findChunk, List.find?, h1, h2]
    · rw [if_neg hc]
      have h1 : (c.index == i) = false := by simp [hc]
      simp only [findChunk] at ih
      simp only [findChunk, List.find?, h1]
      exact ih

/-- `ConcurrentStrategy.handleChunkError(chunk, error)`.  The function never
inspects `error`: unless the whole strategy is aborted, the chunk is marked
`failed` (incrementing `retries`), and it is re-enqueued on the retry queue
when `chunk.retries < maxRetries` after the increment; otherwise it is
dropped with a `console.error`.  `i` is the index of the chunk object the
source receives. -/
def handleChunkError (maxRetries : Nat) (st : StratState) (i : Nat) :
    StratState :=
  if st.aborted then st
  else
    let chunks1 := updateChunkStatus st.chunks i ChunkStatus.failed
    let retriesNow :=
      match findChunk chunks1 i with
      | some c => c.retries
      | none => 0
    if retriesNow < maxRetries then
      { st with chunks := chunks1, retryQueue := st.retryQueue ++ [i] }
    else
      { st with chunks := chunks1 }

/-- `ConcurrentStrategy.handleChunkSuccess(chunkIndex, response)` table
effect: the chunk is marked `completed` (the `onChunkSuccess` callback is
recorded by the interpreter below). -/
def handleChunkSuccess (st : StratState) (i : Nat) : StratState :=
  { st with chunks := updateChunkStatus st.chunks i ChunkStatus.completed }

/-- A pause-cancelled in-flight chunk: the strategy is paused (not aborted)
while chunk 0 is `uploading` with `retries = 0`. -/
def pausedInFlight : StratState :=
  StratState.mk [ChunkInfo.mk 0 0 5 ChunkStatus.uploading 0] [] [] 1
    true false false

/-- C3 counterexample: when `pause()` makes the in-flight network call
reject, `handleChunkError` runs with `aborted = false` and marks the chunk
`failed` with `retries` incremented to 1 (and re-enqueues it for retry) --
the status does not revert to `pending` and the retry count is consumed. -/
theorem pause_cancel_marks_failed :
    findChunk (handleChunkError 3 pausedInFlight 0).chunks 0
        = some (ChunkInfo.mk 0 0 5 ChunkStatus.failed 1) ∧
      (handleChunkError 3 pausedInFlight 0).retryQueue = [0] ∧
      ¬ (∃ c, findChunk (handleChunkError 3 pausedInFlight 0).chunks 0 = some c
          ∧ c.status = ChunkStatus.pending ∧ c.retries = 0) := by
  refine ⟨by decide, by decide, ?_⟩
  intro h
  rcases h with ⟨c, hc, hst, hr⟩
  have : c = ChunkInfo.mk 0 0 5 ChunkStatus.failed 1 := by
    have h1 : findChunk (handleChunkError 3 pausedInFlight 0).chunks 0
        = some (ChunkInfo.mk 0 0 5 ChunkStatus.failed 1) := by decide
    rw [h1] at hc
    exact (Option.some.injEq _ _ ▸ hc).symm
  rw [this] at hst
  exact absurd hst (by decide)

/-- C3 amended: a chunk whose network call rejects -- for any reason,
including the cancellation triggered by `pause()`, since `handleChunkError`
never inspects the error -- is marked `failed` with `retries` incremented
by one (not reverted to `pending`), and is appended to the retry queue
exactly when the incremented count is still below `maxRetries`; only a full
abort suppresses this. -/
theorem rejected_chunk_marked_failed (maxRetries : Nat) (st : StratState)
    (i : Nat) (c : ChunkInfo) (hab : st.aborted = false)
    (hfind : findChunk st.chunks i = some c) :
    findChunk (handleChunkError maxRetries st i).chunks i
        = some (applyStatus c ChunkStatus.failed) ∧
      (applyStatus c ChunkStatus.failed).status = ChunkStatus.failed ∧
      (applyStatus c ChunkStatus.failed).retries = c.retries + 1 ∧
      (handleChunkError maxRetries st i).retryQueue
        = (if c.retries + 1 < maxRetries then st.retryQueue ++ [i]
           else st.retryQueue) := by
  have hfind1 : findChunk (updateChunkStatus st.chunks i ChunkStatus.failed) i
      = some (applyStatus c ChunkStatus.failed) := by
    rw [findChunk_updateChunkStatus, hfind]
    rfl
  have happ : (applyStatus c ChunkStatus.failed).retries = c.retries + 1 := by
    rw [applyStatus]
    simp
  have hmain : handleChunkError maxRetries st i
      = (if c.retries + 1 < maxRetries then
          { st with chunks := updateChunkStatus st.chunks i ChunkStatus.failed,
                    retryQueue := st.retryQueue ++ [i] }
         else
          { st with
            chunks := updateChunkStatus st.chunks i ChunkStatus.failed }) := by
    simp only [handleChunkError, hab, Bool.false_eq_true, if_false, hfind1,
      happ]
  rcases Nat.lt_or_ge (c.retries + 1) maxRetries with hlt | hge
  · rw [if_pos hlt] at hmain
    rw [hmain, if_pos hlt]
    exact ⟨hfind1, rfl, happ, rfl⟩
  · have hnlt : ¬ (c.retries + 1 < maxRetries) := by omega
    rw [if_neg hnlt] at hmain
    rw [hmain, if_neg hnlt]
    exact ⟨hfind1, rfl, happ, rfl⟩

/-- C3 witness: the amended behaviour at the concrete pause-cancelled
state: the chunk ends `failed` with `retries = 1` and is re-enqueued. -/
theorem rejected_chunk_marked_failed_witness :
    pausedInFlight.aborted = false ∧
      findChunk pausedInFlight.chunks 0
        = some (ChunkInfo.mk 0 0 5 ChunkStatus.uploading 0) ∧
      (findChunk (handleChunkError 3 pausedInFlight 0).chunks 0
          = some (applyStatus (ChunkInfo.mk 0 0 5 ChunkStatus.uploading 0)
              ChunkStatus.failed) ∧
        (applyStatus (ChunkInfo.mk 0 0 5 ChunkStatus.uploading 0)
            ChunkStatus.failed).status = ChunkStatus.failed ∧
        (applyStatus (ChunkInfo.mk 0 0 5 ChunkStatus.uploading 0)
            ChunkStatus.failed).retries
          = (ChunkInfo.mk 0 0 5 ChunkStatus.uploading 0).retries + 1 ∧
        (handleChunkError 3 pausedInFlight 0).retryQueue
          = (if (ChunkInfo.mk 0 0 5 ChunkStatus.uploading 0).retries + 1 < 3
             then pausedInFlight.retryQueue ++ [0]
             else pausedInFlight.retryQueue)) :=
  ⟨by decide, by decide,
    rejected_chunk_marked_failed 3 pausedInFlight 0
      (ChunkInfo.mk 0 0 5 ChunkStatus.uploading 0) (by decide) (by decide)⟩

/-- Caller-visible events of one session: `onChunkSuccess(i)`, `onSuccess`,
`onError` (progress callbacks are modelled separately). -/
inductive UEvent where
  | chunkSuccess (i : Nat)
  | success
  | error
deriving DecidableEq, Repr

/-- `ConcurrentStrategy.getNextChunk()`: pop from the retry queue first,
then from the pending queue. -/
def getNextChunk (st : StratState) : Option (Nat × StratState) :=
  match st.retryQueue with
  | i :: rest => some (i, { st with retryQueue := rest })
  | [] =>
    match st.pendingChunks with
    | i :: rest => some (i, { st with pendingChunks := rest })
    | [] => none

/-- `ConcurrentStrategy.canStartNewConnection()`:
`activeConnections < concurrent && (pendingChunks.length > 0 ||
retryQueue.length > 0)`. -/
def canStartNewConnection (concurrent : Nat) (st : StratState) : Bool :=
  decide (st.activeConnections < concurrent) &&
    (decide (st.pendingChunks.length > 0) ||
      decide (st.retryQueue.length > 0))

/-- `ConcurrentStrategy.shouldContinueProcessing()`:
`!paused && !aborted && (pending or retry nonempty or connections active)`. -/
def shouldContinueProcessing (st : StratState) : Bool :=
  !st.paused && !st.aborted &&
    (decide (st.pendingChunks.length > 0) ||
      decide (st.retryQueue.length > 0) ||
      decide (st.activeConnections > 0))

/-- The synchronous prefix of `ConcurrentStrategy.startChunkUpload`:
increment `activeConnections` and mark the chunk `uploading`. -/
def startChunkUpload (st : StratState) (i : Nat) : StratState :=
  { st with
    activeConnections := st.activeConnections + 1
    chunks := updateChunkStatus st.chunks i ChunkStatus.uploading }

/-- The settlement suffix of `startChunkUpload` when the network call
resolves: `handleChunkSuccess` then the `finally` decrement. -/
def settleChunkSuccess (st : StratState) (i : Nat) : StratState :=
  let st1 := handleChunkSuccess st i
  { st1 with activeConnections := st1.activeConnections - 1 }

/-- The settlement suffix of `startChunkUpload` when the network call
rejects: `handleChunkError` then the `finally` decrement. -/
def settleChunkFailure (maxRetries : Nat) (st : StratState) (i : Nat) :
    StratState :=
  let st1 := handleChunkError maxRetries st i
  { st1 with activeConnections := st1.activeConnections - 1 }

/-- The `retries` counter of the first chunk with index `i` (0 if absent). -/
def chunkRetries (chunks : List ChunkInfo) (i : Nat) : Nat :=
  match findChunk chunks i with
  | some c => c.retries
  | none => 0

/-- One chunk upload run to settlement under a sequential schedule.
`transport i r` tells whether the attempt on chunk `i` with current retry
counter `r` resolves (`true`) or rejects (`false`). -/
def uploadOneChunk (transport : Nat → Nat → Bool) (maxRetries : Nat)
    (st : StratState) (i : Nat) : StratState × List UEvent :=
  let st1 := startChunkUpload st i
  if transport i (chunkRetries st1.chunks i) then
    (settleChunkSuccess st1 i, [UEvent.chunkSuccess i])
  else
    (settleChunkFailure maxRetries st1 i, [])

/-- `ConcurrentStrategy.processUploadQueue` under the sequential schedule
(each admitted upload settles before the next loop iteration, the behaviour
produced by a transport that resolves or rejects promptly): while
`shouldContinueProcessing()`, admit the next retry/pending chunk and drive
it to settlement.  Fuel bounds the loop; every run in the theorems below is
given ample fuel. -/
def processQueueSeq (transport : Nat → Nat → Bool) (maxRetries : Nat) :
    Nat → StratState → StratState × List UEvent
  | 0, st => (st, [])
  | fuel + 1, st =>
    if shouldContinueProcessing st then
      match getNextChunk st with
      | some (i, st1) =>
        let r1 := uploadOneChunk transport maxRetries st1 i
        let r2 := processQueueSeq transport maxRetries fuel r1.1
        (r2.1, r1.2 ++ r2.2)
      | none => (st, [])
    else (st, [])

/-- Steps 6--7 of `ConcurrentStrategy.execute` after reconciliation: drive
`processUploadQueue`, then `completeUpload` (which throws when paused or
aborted, and otherwise reports the merge outcome `mergeOk`), then
`onSuccess`; a throw lands in `handleUploadError`, which calls `onError`
unless the strategy was aborted. -/
def executeUploadPhase (transport : Nat → Nat → Bool) (mergeOk : Bool)
    (maxRetries fuel : Nat) (st : StratState) : StratState × List UEvent :=
  let r := processQueueSeq transport maxRetries fuel st
  if r.1.paused || r.1.aborted then
    if r.1.aborted then r else (r.1, r.2 ++ [UEvent.error])
  else if mergeOk then
    (r.1, r.2 ++ [UEvent.success])
  else if r.1.aborted then r
  else (r.1, r.2 ++ [UEvent.error])

/-- A fresh one-chunk session state about to enter the upload phase:
a single 5-byte pending chunk queued for upload. -/
def oneChunkSession : StratState :=
  StratState.mk [ChunkInfo.mk 0 0 5 ChunkStatus.pending 0] [0] [] 0
    false false true

/-- C2: with `maxRetries = 3` and a transport that rejects every attempt,
the single chunk exhausts its retries (3 failed attempts, `retries = 3`),
is silently dropped by `handleChunkError` (a `console.error` only), and the
session still proceeds to `completeUpload` and fires `onSuccess` -- no
`onError`, no failed terminal state, even though the chunk was never
uploaded.  This evaluates the code at the failing input of the claim. -/
theorem retry_exhaustion_still_fires_onSuccess :
    (executeUploadPhase (fun _ _ => false) true 3 10 oneChunkSession).2
        = [UEvent.success] ∧
      findChunk
          (executeUploadPhase (fun _ _ => false) true 3 10
            oneChunkSession).1.chunks 0
        = some (ChunkInfo.mk 0 0 5 ChunkStatus.failed 3) ∧
      UEvent.error ∉
        (executeUploadPhase (fun _ _ => false) true 3 10 oneChunkSession).2 := by
  decide

/-- `ConcurrentStrategy.pause()`: unconditionally set the paused flag,
abort the in-flight cancellation signal and drop the controller
(`this.abortController = null`).  There is no state guard. -/
def pauseStrat (st : StratState) : StratState :=
  { st with paused := true, abortController := false }

/-- `ConcurrentStrategy.abort()`: set the aborted flag, abort the signal
and drop the controller.  (The source also clears `uploadId` and
`hashCalculated`, which are outside this control state.) -/
def abortStrat (st : StratState) : StratState :=
  { st with aborted := true, abortController := false }

/-- One event-loop step of the scheduling engine
(`processUploadQueue` / `startChunkUpload` settlements / caller actions):

* `launch` -- one loop iteration of `processUploadQueue` that admits a chunk:
  it requires `canStartNewConnection()` and runs the synchronous prefix of
  `startChunkUpload` (this is the ONLY step that increments
  `activeConnections`);
* `settleOk` / `settleFail` -- an in-flight upload resolves / rejects and
  runs its settlement (decrementing `activeConnections`);
* `pauseStep` / `abortStep` -- the caller pauses or aborts. -/
inductive SchedStep (concurrent maxRetries : Nat) :
    StratState → StratState → Prop where
  | launch (st st1 : StratState) (i : Nat) :
      canStartNewConnection concurrent st = true →
      getNextChunk st = some (i, st1) →
      SchedStep concurrent maxRetries st (startChunkUpload st1 i)
  | settleOk (st : StratState) (i : Nat) :
      0 < st.activeConnections →
      SchedStep concurrent maxRetries st (settleChunkSuccess st i)
  | settleFail (st : StratState) (i : Nat) :
      0 < st.activeConnections →
      SchedStep concurrent maxRetries st (settleChunkFailure maxRetries st i)
  | pauseStep (st : StratState) :
      SchedStep concurrent maxRetries st (pauseStrat st)
  | abortStep (st : StratState) :
      SchedStep concurrent maxRetries st (abortStrat st)

/-- States reachable from `init` through scheduling steps. -/
inductive SchedReachable (concurrent maxRetries : Nat) (init : StratState) :
    StratState → Prop where
  | refl : SchedReachable concurrent maxRetries init init
  | step {s t : StratState} :
      SchedReachable concurrent maxRetries init s →
      SchedStep concurrent maxRetries s t →
      SchedReachable concurrent maxRetries init t

theorem getNextChunk_activeConnections {st st1 : StratState} {i : Nat}
    (h : getNextChunk st = some (i, st1)) :
    st1.activeConnections = st.activeConnections := by
  rw [getNextChunk] at h
  match hr : st.retryQueue with
  | j :: rest =>
    rw [hr] at h
    simp only [Option.some.injEq, Prod.mk.injEq] at h
    rw [← h.2]
  | [] =>
    rw [hr] at h
    match hp : st.pendingChunks with
    | j :: rest =>
      rw [hp] at h
      simp only [Option.some.injEq, Prod.mk.injEq] at h
      rw [← h.2]
    | [] =>
      rw [hp] at h
      exact absurd h (by simp)

/-- Every scheduling step preserves the concurrency bound: only `launch`
increments `activeConnections`, and it is guarded by
`canStartNewConnection`. -/
theorem schedStep_active_le {concurrent maxRetries : Nat}
    {s t : StratState} (hs : SchedStep concurrent maxRetries s t)
    (hle : s.activeConnections ≤ concurrent) :
    t.activeConnections ≤ concurrent := by
  cases hs with
  | launch st1 i hcan hnext =>
    have hact := getNextChunk_activeConnections hnext
    rw [canStartNewConnection] at hcan
    simp only [Bool.and_eq_true, decide_eq_true_eq] at hcan
    show (startChunkUpload st1 i).activeConnections ≤ concurrent
    rw [startChunkUpload]
    simp only []
    omega
  | settleOk i hpos =>
    show (settleChunkSuccess s i).activeConnections ≤ concurrent
    rw [settleChunkSuccess, handleChunkSuccess]
    simp only []
    omega
  | settleFail i hpos =>
    show (settleChunkFailure maxRetries s i).activeConnections ≤ concurrent
    rw [settleChunkFailure, handleChunkError]
    by_cases hab : s.aborted
    · simp only [hab, if_true]
      omega
    · simp only [hab, Bool.false_eq_true, if_false]
      by_cases hretry : (match
          findChunk (updateChunkStatus s.chunks i ChunkStatus.failed) i with
          | some c => c.retries
          | none => 0) < maxRetries
      · simp only [if_pos hretry]
        omega
      · simp only [if_neg hretry]
        omega
  | pauseStep =>
    exact hle
  | abortStep =>
    exact hle

/-- C6: in every state reachable by the scheduling engine from a quiescent
start (`activeConnections = 0`), the number of in-flight chunk uploads
never exceeds the configured concurrency limit: the only incrementing step
is guarded by `canStartNewConnection`, which requires
`activeConnections < concurrent` and a nonempty retry-or-pending queue. -/
theorem concurrency_bound (concurrent maxRetries : Nat)
    (init st : StratState) (hinit : init.activeConnections = 0)
    (hre : SchedReachable concurrent maxRetries init st) :
    st.activeConnections ≤ concurrent := by
  induction hre with
  | refl => omega
  | step hr hs ih => exact schedStep_active_le hs ih

/-- A quiescent two-chunk start state for the concurrency-bound witness. -/
def twoChunkIdle : StratState :=
  StratState.mk
    [ChunkInfo.mk 0 0 5 ChunkStatus.pending 0,
     ChunkInfo.mk 1 5 10 ChunkStatus.pending 0] [0, 1] [] 0 false false true

/-- C6 witness: with `concurrent = 1`, after admitting chunk 0 from the
quiescent two-chunk state, the reached state respects the bound. -/
theorem concurrency_bound_witness :
    (startChunkUpload
        (StratState.mk
          [ChunkInfo.mk 0 0 5 ChunkStatus.pending 0,
           ChunkInfo.mk 1 5 10 ChunkStatus.pending 0] [1] [] 0 false false
          true) 0).activeConnections ≤ 1 :=
  concurrency_bound 1 3 twoChunkIdle _ (by decide)
    (SchedReachable.step SchedReachable.refl
      (SchedStep.launch twoChunkIdle
        (StratState.mk
          [ChunkInfo.mk 0 0 5 ChunkStatus.pending 0,
           ChunkInfo.mk 1 5 10 ChunkStatus.pending 0] [1] [] 0 false false
          true) 0 (by decide) (by decide)))

/-- Reconciliation of server-reported progress (step 4 of `execute`, step 2
of `resume`):
`progressInfo.uploadedChunks.forEach(i => chunkManager.updateChunkStatus(i,
completed))`. -/
def reconcileUploaded (chunks : List ChunkInfo) (uploaded : List Nat) :
    List ChunkInfo :=
  uploaded.foldl
    (fun cs i => updateChunkStatus cs i ChunkStatus.completed) chunks

/-- `ConcurrentStrategy.prepareUploadQueue()`: the pending chunks excluding
completed indices, followed by the retry candidates. -/
def prepareUploadQueue (chunks : List ChunkInfo) (maxRetries : Nat) :
    List ChunkInfo :=
  getPendingChunks chunks (getCompletedIndices chunks) ++
    getChunksToRetry chunks maxRetries

theorem updateChunkStatus_map_index (cs : List ChunkInfo) (i : Nat)
    (s : ChunkStatus) :
    (updateChunkStatus cs i s).map ChunkInfo.index
      = cs.map ChunkInfo.index := by
  induction cs with
  | nil => rfl
  | cons c rest ih =>
    rw [updateChunkStatus]
    by_cases hc : c.index = i
    · rw [if_pos hc]
      simp [applyStatus]
    · rw [if_neg hc]
      simp [ih]

theorem mem_updateChunkStatus {cs : List ChunkInfo} {i : Nat}
    {s : ChunkStatus} {c : ChunkInfo} (h : c ∈ updateChunkStatus cs i s) :
    c ∈ cs ∨ ∃ c0, c0 ∈ cs ∧ c = applyStatus c0 s := by
  induction cs with
  | nil => simp [updateChunkStatus] at h
  | cons d rest ih =>
    rw [updateChunkStatus] at h
    by_cases hd : d.index = i
    · rw [if_pos hd] at h
      rcases List.mem_cons.mp h with h1 | h1
      · exact Or.inr ⟨d, List.mem_cons_self d rest, h1⟩
      · exact Or.inl (List.mem_cons_of_mem d h1)
    · rw [if_neg hd] at h
      rcases List.mem_cons.mp h with h1 | h1
      · exact Or.inl (h1 ▸ List.mem_cons_self d rest)
      · rcases ih h1 with h2 | ⟨c0, hc0, he⟩
        · exact Or.inl (List.mem_cons_of_mem d h2)
        · exact Or.inr ⟨c0, List.mem_cons_of_mem d hc0, he⟩

/-- After marking index `u` completed in a table with distinct indices,
every chunk with index `u` is completed. -/
theorem updateCompleted_establishes (cs : List ChunkInfo) (u : Nat)
    (hnd : (cs.map ChunkInfo.index).Nodup) :
    ∀ c ∈ updateChunkStatus cs u ChunkStatus.completed,
      c.index = u → c.status = ChunkStatus.completed := by
  induction cs with
  | nil =>
    intro c h
    simp [updateChunkStatus] at h
  | cons d rest ih =>
    rw [List.map_cons, List.nodup_cons] at hnd
    intro c hc hcu
    rw [updateChunkStatus] at hc
    by_cases hd : d.index = u
    · rw [if_pos hd] at hc
      rcases List.mem_cons.mp hc with h1 | h1
      · rw [h1]
        rfl
      · exfalso
        apply hnd.1
        rw [hd]
        exact List.mem_map.mpr ⟨c, h1, hcu⟩
    · rw [if_neg hd] at hc
      rcases List.mem_cons.mp hc with h1 | h1
      · rw [h1] at hcu
        exact absurd hcu hd
      · exact ih hnd.2 c h1 hcu

/-- Marking any index completed preserves the property that every chunk
with index `u` is completed. -/
theorem updateCompleted_preserves (cs : List ChunkInfo) (u i : Nat)
    (hq : ∀ c ∈ cs, c.index = u → c.status = ChunkStatus.completed) :
    ∀ c ∈ updateChunkStatus cs i ChunkStatus.completed,
      c.index = u → c.status = ChunkStatus.completed := by
  intro c hc hcu
  rcases mem_updateChunkStatus hc with h1 | ⟨c0, hc0, he⟩
  · exact hq c h1 hcu
  · rw [he]
    rfl

theorem reconcile_preserves (cs : List ChunkInfo) (u : Nat) (us : List Nat)
    (hq : ∀ c ∈ cs, c.index = u → c.status = ChunkStatus.completed) :
    ∀ c ∈ reconcileUploaded cs us,
      c.index = u → c.status = ChunkStatus.completed := by
  induction us generalizing cs with
  | nil => exact hq
  | cons v rest ih =>
    exact ih (updateChunkStatus cs v ChunkStatus.completed)
      (updateCompleted_preserves cs u v hq)

theorem reconcile_map_index (cs : List ChunkInfo) (us : List Nat) :
    (reconcileUploaded cs us).map ChunkInfo.index
      = cs.map ChunkInfo.index := by
  induction us generalizing cs with
  | nil => rfl
  | cons v rest ih =>
    have h1 := ih (updateChunkStatus cs v ChunkStatus.completed)
    have h2 := updateChunkStatus_map_index cs v ChunkStatus.completed
    exact h1.trans h2

/-- After reconciliation, every chunk whose index the server reported as
uploaded is completed (table indices assumed distinct, as produced by
`_prepareChunks`). -/
theorem reconcile_completes (cs : List ChunkInfo) (us : List Nat)
    (hnd : (cs.map ChunkInfo.index).Nodup) :
    ∀ u ∈ us, ∀ c ∈ reconcileUploaded cs us,
      c.index = u → c.status = ChunkStatus.completed := by
  induction us generalizing cs with
  | nil =>
    intro u hu
    exact absurd hu (by simp)
  | cons v rest ih =>
    intro u hu
    rcases List.mem_cons.mp hu with h1 | h1
    · subst h1
      exact reconcile_preserves (updateChunkStatus cs u ChunkStatus.completed)
        u rest (updateCompleted_establishes cs u hnd)
    · have hnd2 : ((updateChunkStatus cs v ChunkStatus.completed).map
          ChunkInfo.index).Nodup := by
        rw [updateChunkStatus_map_index]
        exact hnd
      exact ih (updateChunkStatus cs v ChunkStatus.completed) hnd2 u h1

/-- C8: for every resume (or initial reconciliation), no chunk whose index
appears in the server-reported `uploadedChunks` list ends up in the upload
queue built by `prepareUploadQueue`: reconciliation marks those chunks
`completed`, and the queue only admits `pending` chunks outside the
completed indices plus `failed` retry candidates. -/
theorem resume_never_reschedules_uploaded (chunks : List ChunkInfo)
    (uploaded : List Nat) (maxRetries : Nat)
    (hnd : (chunks.map ChunkInfo.index).Nodup) :
    ∀ c ∈ prepareUploadQueue (reconcileUploaded chunks uploaded) maxRetries,
      c.index ∉ uploaded := by
  intro c hc hmem
  rcases List.mem_append.mp hc with h1 | h1
  · have hf := List.mem_filter.mp h1
    have hcomp := reconcile_completes chunks uploaded hnd c.index hmem c
      hf.1 rfl
    have hp := hf.2
    simp only [Bool.and_eq_true, beq_iff_eq] at hp
    rw [hcomp] at hp
    exact absurd hp.1 (by simp)
  · have hf := List.mem_filter.mp h1
    have hcomp := reconcile_completes chunks uploaded hnd c.index hmem c
      hf.1 rfl
    have hp := hf.2
    simp only [Bool.and_eq_true, beq_iff_eq] at hp
    rw [hcomp] at hp
    exact absurd hp.1 (by simp)

/-- The 12-byte / 5-byte-chunk resume scenario: chunk 0 completed before
the pause, chunk 1 was in flight when the pause cancelled it (now `failed`
with one consumed retry), chunk 2 untouched. -/
def pausedTable : List ChunkInfo :=
  [ChunkInfo.mk 0 0 5 ChunkStatus.completed 0,
   ChunkInfo.mk 1 5 10 ChunkStatus.failed 1,
   ChunkInfo.mk 2 10 12 ChunkStatus.pending 0]

/-- C8 witness: with the server reporting `uploadedChunks = [0]`, the
resume queue contains exactly chunks 2 and 1 -- never chunk 0. -/
theorem resume_never_reschedules_uploaded_witness :
    (pausedTable.map ChunkInfo.index).Nodup ∧
      (∀ c ∈ prepareUploadQueue (reconcileUploaded pausedTable [0]) 3,
        c.index ∉ [0]) ∧
      (prepareUploadQueue (reconcileUploaded pausedTable [0]) 3).map
          ChunkInfo.index = [2, 1] :=
  ⟨by decide,
    resume_never_reschedules_uploaded pausedTable [0] 3 (by decide),
    by decide⟩

/-- `ConcurrentStrategy.resume()` control part: `if (!this.paused) return`
is the only guard; when paused, the flag is cleared and a fresh
`AbortController` is installed (the reconcile-and-re-drive continuation is
modelled by `reconcileUploaded` / `prepareUploadQueue` / the scheduler
steps). -/
def resumeStrat (st : StratState) : StratState :=
  if !st.paused then st
  else { st with paused := false, abortController := true }

/-- A freshly-constructed, idle strategy state: nothing scheduled, nothing
in flight, no controller -- certainly not in the `uploading` state. -/
def idleStrat : StratState :=
  StratState.mk [ChunkInfo.mk 0 0 5 ChunkStatus.pending 0] [] [] 0
    false false false

/-- C9 counterexample: `pause()` carries no state guard, so calling it on
an idle (non-uploading) engine is not a no-op: it sets the paused flag
(observably changing later `resume()` behaviour). -/
theorem pause_not_noop_when_idle :
    pauseStrat idleStrat ≠ idleStrat ∧
      (pauseStrat idleStrat).paused = true ∧
      idleStrat.paused = false ∧
      resumeStrat (pauseStrat idleStrat) ≠ pauseStrat idleStrat := by
  refine ⟨?_, by decide, by decide, ?_⟩
  · intro h
    have := congrArg StratState.paused h
    simp [pauseStrat, idleStrat] at this
  · intro h
    have := congrArg StratState.paused h
    simp [resumeStrat, pauseStrat, idleStrat] at this

/-- C9 amended: `resume()` is a no-op unless the paused flag is set, and
from a paused state it clears the flag and installs a fresh controller
(after which the scheduler is re-driven on the reconciled queue);
`pause()`, however, is unguarded: from any state -- uploading or not -- it
sets the paused flag and aborts and drops the cancellation controller. -/
theorem resume_noop_unless_paused (st : StratState)
    (h : st.paused = false) :
    resumeStrat st = st ∧
      (pauseStrat st).paused = true ∧
      (pauseStrat st).abortController = false ∧
      resumeStrat (pauseStrat st)
        = { st with paused := false, abortController := true } := by
  refine ⟨?_, rfl, rfl, ?_⟩
  · rw [resumeStrat, h]
    rfl
  · rw [resumeStrat, pauseStrat]
    rfl

/-- C9 witness: the amended pause/resume behaviour at the idle state. -/
theorem resume_noop_unless_paused_witness :
    idleStrat.paused = false ∧
      (resumeStrat idleStrat = idleStrat ∧
        (pauseStrat idleStrat).paused = true ∧
        (pauseStrat idleStrat).abortController = false ∧
        resumeStrat (pauseStrat idleStrat)
          = { idleStrat with paused := false, abortController := true }) :=
  ⟨by decide, resume_noop_unless_paused idleStrat (by decide)⟩

/-- The response shape of the `checkProgress` transport call; missing
fields model `undefined` (JS `response.uploadedChunks || []`). -/
structure ProgressResponse where
  uploadedChunks : Option (List Nat)
  isComplete : Option Bool
deriving DecidableEq, Repr

/-- `ConcurrentStrategy.checkUploadProgress(uploadId)`: on resolution the
fields are defaulted (`|| []`, `|| false`); a rejection is caught, logged
and converted to `{uploadedChunks: [], isComplete: false}`. -/
def checkUploadProgress (result : Except String ProgressResponse) :
    List Nat × Bool :=
  match result with
  | Except.error _ => ([], false)
  | Except.ok r => (r.uploadedChunks.getD [], r.isComplete.getD false)

/-- C10: a rejected `checkProgress` transport call never propagates: the
result is `{uploadedChunks: [], isComplete: false}`, indistinguishable from
a server report of no uploaded chunks, and the subsequent reconciliation
leaves the chunk table unchanged -- the session proceeds as if nothing had
been uploaded. -/
theorem checkUploadProgress_swallows_errors (e : String)
    (chunks : List ChunkInfo) :
    checkUploadProgress (Except.error e) = ([], false) ∧
      checkUploadProgress (Except.error e)
        = checkUploadProgress
            (Except.ok (ProgressResponse.mk (some []) (some false))) ∧
      reconcileUploaded chunks (checkUploadProgress (Except.error e)).1
        = chunks := by
  exact ⟨rfl, rfl, rfl⟩

/-- The state read and written by the progress-emission code of
`ConcurrentStrategy`: the chunk table, the memoized file hash, the
`lastReportedProgress` memo and the paused flag. -/
structure ProgressState where
  chunks : List ChunkInfo
  fileHash : Option String
  lastReportedProgress : ℤ
  paused : Bool
deriving DecidableEq, Repr

/-- `Math.floor(progress * 0.2)` -- the 20% weight of the hashing phase. -/
def hashOverall (progress : ℚ) : ℤ := jsFloor (progress * (1 / 5))

/-- `Math.floor(20 + baseProgress + chunkContribution)` of
`updateChunkProgress`: completed-chunk credit plus the fractional byte
progress of the in-flight chunk. -/
def chunkOverall (completed total : Nat) (chunkProgress : ℚ) : ℤ :=
  jsFloor (20 + (completed : ℚ) / (total : ℚ) * 80 +
    chunkProgress / 100 * (80 / (total : ℚ)))

/-- `Math.max(0, Math.min(100, Math.floor(20 + completedProgress * 0.8)))`
of `updateProgress`. -/
def settledOverall (completedProgress : ℤ) : ℤ :=
  max 0 (min 100 (jsFloor ((20 : ℚ) + (completedProgress : ℚ) * (4 / 5))))

/-- The hashing-phase progress callback installed by
`calculateFileHashWithProgress`: scale by the 20% hash weight, clamp
against `lastReportedProgress`, emit only strict increases.  Returns the
new state and the list of `onProgress` values emitted. -/
def hashProgressUpdate (st : ProgressState) (progress : ℚ) :
    ProgressState × List ℤ :=
  if !st.paused then
    let safeProgress := max st.lastReportedProgress (hashOverall progress)
    if st.lastReportedProgress < safeProgress then
      ({ st with lastReportedProgress := safeProgress }, [safeProgress])
    else (st, [])
  else (st, [])

/-- `ConcurrentStrategy.updateChunkProgress(chunkIndex, chunkProgress)`:
the floored overall value, clamped to 100 and clamped against
`lastReportedProgress`, which it also updates. -/
def updateChunkProgress (st : ProgressState) (_chunkIndex : Nat)
    (chunkProgress : ℚ) : ProgressState × List ℤ :=
  if st.chunks.length = 0 then (st, [0])
  else
    let safeProgress := max st.lastReportedProgress
      (min 100 (chunkOverall (getCompletedIndices st.chunks).length
        st.chunks.length chunkProgress))
    ({ st with lastReportedProgress := safeProgress }, [safeProgress])

/-- `ConcurrentStrategy.updateProgress()` (run in the `finally` of every
`startChunkUpload`): recompute `20 + 0.8 * getProgress()` from completed
chunks only, clamp to `[0, 100]` -- but neither clamp against nor update
`lastReportedProgress`. -/
def updateProgress (st : ProgressState) : ProgressState × List ℤ :=
  if st.fileHash = none ∨ st.chunks.length = 0 then (st, [0])
  else (st, [settledOverall (getProgress st.chunks)])

/-- A one-chunk session whose hash is about to finish: hash present, no
emission yet. -/
def hashingDone : ProgressState :=
  ProgressState.mk [ChunkInfo.mk 0 0 5 ChunkStatus.pending 0] (some "h") 0
    false

/-- The `onProgress` values emitted on this session trace: the hash
callback fires at 100%, the single chunk starts uploading and reports 50%
byte progress, then its request fails and the `finally` block runs
`updateProgress`. -/
def failingTrace : List ℤ :=
  let r1 := hashProgressUpdate hashingDone 100
  let st1 := ProgressState.mk
    (updateChunkStatus r1.1.chunks 0 ChunkStatus.uploading) r1.1.fileHash
    r1.1.lastReportedProgress r1.1.paused
  let r2 := updateChunkProgress st1 0 50
  let st2 := ProgressState.mk
    (updateChunkStatus r2.1.chunks 0 ChunkStatus.failed) r2.1.fileHash
    r2.1.lastReportedProgress r2.1.paused
  let r3 := updateProgress st2
  r1.2 ++ r2.2 ++ r3.2

theorem hashOverall_100 : hashOverall 100 = 20 := by
  rw [hashOverall, jsFloor]
  norm_num

theorem chunkOverall_half : chunkOverall 0 1 50 = 60 := by
  rw [chunkOverall, jsFloor]
  norm_num

theorem settledOverall_zero : settledOverall 0 = 20 := by
  rw [settledOverall, jsFloor]
  norm_num

theorem getProgress_failed_chunk :
    getProgress [ChunkInfo.mk 0 0 5 ChunkStatus.failed 1] = 0 := by
  rw [getProgress, jsRound,
    show completedCount [ChunkInfo.mk 0 0 5 ChunkStatus.failed 1] = 0
      from by decide]
  norm_num

/-- C4: the emitted progress sequence 20, 60, 20 is not monotonically
non-decreasing: after the request of a chunk fails, `updateProgress` recomputes
progress from completed chunks only and emits it without clamping against
`lastReportedProgress`, regressing below the 60 previously reported for the
byte progress of the in-flight chunk. -/
theorem progress_regresses :
    failingTrace = [20, 60, 20] ∧
      ¬ failingTrace.Chain' (fun a b => a ≤ b) := by
  have h1 : hashProgressUpdate hashingDone 100
      = (ProgressState.mk [ChunkInfo.mk 0 0 5 ChunkStatus.pending 0]
          (some "h") 20 false, [20]) := by
    rw [hashProgressUpdate, hashOverall_100]
    decide
  have h2 : updateChunkProgress
      (ProgressState.mk [ChunkInfo.mk 0 0 5 ChunkStatus.uploading 0]
        (some "h") 20 false) 0 50
      = (ProgressState.mk [ChunkInfo.mk 0 0 5 ChunkStatus.uploading 0]
          (some "h") 60 false, [60]) := by
    rw [updateChunkProgress,
      show getCompletedIndices
          [ChunkInfo.mk 0 0 5 ChunkStatus.uploading 0] = []
        from by decide]
    rw [show ([] : List Nat).length = 0 from rfl,
      show ([ChunkInfo.mk 0 0 5 ChunkStatus.uploading 0] :
        List ChunkInfo).length = 1 from rfl, chunkOverall_half]
    decide
  have h3 : updateProgress
      (ProgressState.mk [ChunkInfo.mk 0 0 5 ChunkStatus.failed 1]
        (some "h") 60 false)
      = (ProgressState.mk [ChunkInfo.mk 0 0 5 ChunkStatus.failed 1]
          (some "h") 60 false, [20]) := by
    rw [updateProgress]
    rw [show getProgress
        (ProgressState.mk [ChunkInfo.mk 0 0 5 ChunkStatus.failed 1]
          (some "h") 60 false).chunks = 0 from getProgress_failed_chunk]
    rw [settledOverall_zero]
    decide
  have htrace : failingTrace = [20, 60, 20] := by
    rw [failingTrace, h1]
    rw [show updateChunkStatus
        [ChunkInfo.mk 0 0 5 ChunkStatus.pending 0] 0 ChunkStatus.uploading
        = [ChunkInfo.mk 0 0 5 ChunkStatus.uploading 0] from by decide]
    rw [h2]
    rw [show updateChunkStatus
        [ChunkInfo.mk 0 0 5 ChunkStatus.uploading 0] 0 ChunkStatus.failed
        = [ChunkInfo.mk 0 0 5 ChunkStatus.failed 1] from by decide]
    rw [h3]
    rfl
  refine ⟨htrace, ?_⟩
  rw [htrace]
  simp only [List.chain'_cons, List.chain'_singleton, and_true]
  omega

end BigUploader